import Mathlib

/- Verification of the transcriptai backend against its specification.

   Shallow embedding conventions:
   - Python `str` values that undergo character-level processing are
     modelled as `List Char`; identifiers and status labels stay `String`.
   - Python floats that only feed comparisons and additions are modelled
     as `ℚ`; Python `int` is `ℤ` (or `ℕ` where the source guarantees it).
   - Timestamps (`datetime` / `updated_at`) are modelled as integer
     seconds; a missing or unparsable timestamp is `none`.
   - Fallible operations return `Except` / `Option`; external
     collaborators (audio extraction, the transcription server, the
     VADER analyzer, the filesystem cache probe) are oracle parameters.
-/

set_option maxHeartbeats 1000000
set_option maxRecDepth 100000

/- ==================================================================
   Text primitives shared by several components
   (Python str.strip / str.split semantics, backend/app/*.py).
   ================================================================== -/

/-- ASCII whitespace stripped by Python `str.strip()` and matched by `\s`. -/
def pyWs (c : Char) : Bool :=
  c == ' ' || c == '\t' || c == '\n' || c == '\r' || c == '\x0b' || c == '\x0c'

/-- Leading-whitespace removal (left half of Python `str.strip()`). -/
def trimLeft (l : List Char) : List Char := l.dropWhile pyWs

/-- Trailing-whitespace removal (right half of Python `str.strip()`). -/
def trimRight (l : List Char) : List Char := (l.reverse.dropWhile pyWs).reverse

/-- Python `str.strip()`. -/
def pyStrip (l : List Char) : List Char := trimRight (trimLeft l)

/-- Python `sep.join(lines)`. -/
def joinWith (sep : List Char) : List (List Char) → List Char
  | [] => []
  | [x] => x
  | x :: y :: rest => x ++ sep ++ joinWith sep (y :: rest)

/-- Prepend a character to the first element of a list of strings. -/
def consRun (c : Char) : List (List Char) → List (List Char)
  | [] => [[c]]
  | r :: rs => (c :: r) :: rs

/-- Python `str.split('\n')`: list of lines, empty string giving `[[]]`. -/
def splitLines : List Char → List (List Char)
  | [] => [[]]
  | c :: rest =>
    if c = '\n' then [] :: splitLines rest else consRun c (splitLines rest)

/-- Maximal non-whitespace runs of a string, in order: the word list
produced by Python `str.split()` with no arguments, and also the notion
of "non-whitespace run" used by the export round-trip property. -/
def runsOf : List Char → List (List Char)
  | [] => []
  | c :: rest =>
    if pyWs c then runsOf rest
    else
      match rest with
      | [] => [[c]]
      | d :: _ => if pyWs d then [c] :: runsOf rest else consRun c (runsOf rest)

/-- Python `str.center(width)` (space fill): CPython pads the extra cell
on the left exactly when both the margin and the width are odd. -/
def pyCenter (width : ℕ) (l : List Char) : List Char :=
  if width ≤ l.length then l
  else
    let marg := width - l.length
    let left := marg / 2 + (if marg % 2 = 1 ∧ width % 2 = 1 then 1 else 0)
    List.replicate left ' ' ++ l ++ List.replicate (marg - left) ' '

/- ==================================================================
   C6 — sentiment classification
   (backend/app/nlp_processor.py, NLPProcessor.analyze_sentiment_vader,
   lines 357-367: classification of the analyzer's compound score).
   ================================================================== -/

/-- Python `int()` applied to a real number: truncation toward zero. -/
def ratTrunc (q : ℚ) : ℤ := if 0 ≤ q then ⌊q⌋ else ⌈q⌉

structure SentimentResult where
  sentiment : String
  sentimentScore : ℤ
deriving DecidableEq

/-- Embedding of the classification block of `analyze_sentiment_vader`:
given the VADER compound score, produce the sentiment label and the
returned `sentiment_score`. -/
def classifySentiment (compound : ℚ) : SentimentResult :=
  if 1/20 ≤ compound then ⟨"positive", ratTrunc (compound * 100)⟩
  else if compound ≤ -(1/20) then ⟨"negative", ratTrunc (compound * 100)⟩
  else ⟨"neutral", 0⟩

/- ==================================================================
   C10 — results listing pagination
   (backend/app/main.py, get_pipeline_results, lines 1022-1203).
   ================================================================== -/

/-- Python `//` on ints: floor division, raising `ZeroDivisionError`
on a zero divisor. -/
def pythonFloorDiv (a b : ℤ) : Except String ℤ :=
  if b = 0 then .error "ZeroDivisionError" else .ok (Int.fdiv a b)

structure ResultsPage where
  results : List String
  total : ℕ
  page : ℤ
  pageSize : ℤ
deriving DecidableEq

/-- Embedding of `get_pipeline_results` after filtering: `calls` stands
for the filtered, ordered rows the database returns (the query itself
succeeds for any `limit`: SQL `LIMIT 0` is valid and yields no rows).
The response computes `page = offset // limit + 1`; the handler's
`except Exception` clause surfaces the `ZeroDivisionError` as HTTP 500. -/
def getPipelineResults (limit offset : ℤ) (calls : List String) : Except ℕ ResultsPage :=
  let total := calls.length
  let paged := (calls.drop offset.toNat).take limit.toNat
  match pythonFloorDiv offset limit with
  | .error _ => .error 500
  | .ok q => .ok ⟨paged, total, q + 1, limit⟩

/- ==================================================================
   C1 — per-session event bus
   (backend/app/live_events.py, TranscriptionEventBus).
   ================================================================== -/

structure BusEvent where
  type : String
  chunkIndex : Option ℕ
  text : String
deriving DecidableEq

/-- State of one session's channel inside `TranscriptionEventBus`:
the shared `asyncio.Queue` (front = oldest) and the replay `deque`
with `maxlen = bufSize`. -/
structure BusState where
  buffer : List BusEvent
  queue : List BusEvent
  bufSize : ℕ
deriving DecidableEq

def initBus (n : ℕ) : BusState := ⟨[], [], n⟩

/-- `TranscriptionEventBus.publish`: put the event on the session queue
and append it to the ring buffer (dropping from the left on overflow). -/
def publish (s : BusState) (e : BusEvent) : BusState :=
  let b := s.buffer ++ [e]
  { s with
    queue := s.queue ++ [e]
    buffer := if s.bufSize < b.length then b.drop (b.length - s.bufSize) else b }

def publishAll (s : BusState) (es : List BusEvent) : BusState := es.foldl publish s

/-- Queue consumption by a subscriber: events are taken in FIFO order
until a `complete` event is yielded (after which the generator breaks);
if the queue runs dry the subscriber blocks, so the consumed list is
everything available. -/
def consumeUntilComplete : List BusEvent → List BusEvent
  | [] => []
  | e :: rest => if e.type = "complete" then [e] else e :: consumeUntilComplete rest

/-- `TranscriptionEventBus.subscribe` for a subscriber that is the sole
consumer of the session queue: it first yields a snapshot of the ring
buffer, then consumes the shared queue — whose content at subscription
time is `s.queue`, followed by the events published afterwards. -/
def subscriberDeliveries (s : BusState) (future : List BusEvent) : List BusEvent :=
  s.buffer ++ consumeUntilComplete (s.queue ++ future)

/- ==================================================================
   C3 / C4 / C7 — model job-state persistence and downloads
   (backend/app/api/models.py).
   ================================================================== -/

/-- One value of the persisted `model_jobs.json` mapping. `updatedAt`
is the parsed `updated_at` timestamp in seconds; `none` models a
missing or unparsable value (the code's `except` fallback). -/
structure JobRecord where
  status : String
  progress : Option ℚ
  message : Option String
  version : Option String
  updatedAt : Option ℤ
deriving DecidableEq

abbrev JobMap := List (String × JobRecord)

/-- `_STALE_DOWNLOAD_MINUTES * 60`. -/
def staleSeconds : ℤ := 15 * 60

/-- The normalization `_load_job_state` applies to a stale entry. -/
def staleErrorRecord (e : JobRecord) (now : ℤ) : JobRecord :=
  { e with
    status := "error"
    message := some "Download timed out; please retry."
    progress := none
    updatedAt := some now }

/-- Per-entry normalization inside `_load_job_state` (lines 91-104):
only a `downloading` entry with a parsable timestamp older than the
stale threshold is rewritten. -/
def normalizeEntry (now : ℤ) (e : JobRecord) : JobRecord :=
  if e.status = "downloading" then
    match e.updatedAt with
    | some u => if staleSeconds < now - u then staleErrorRecord e now else e
    | none => e
  else e

/-- `_load_job_state`: returns the normalized in-memory mapping and
whether the `if normalized != raw` guard fires. The Python loop mutates
the entry dicts in place (lines 100-103) and stores the same objects in
`normalized` (line 104), so by the time line 105 compares them, `raw`
holds the very objects already normalized: both sides of the comparison
are the normalized mapping, the guard never fires, and the persisted
file is never rewritten from the read path. -/
def loadJobState (now : ℤ) (raw : JobMap) : JobMap × Bool :=
  let normalized := raw.map fun p => (p.1, normalizeEntry now p.2)
  (normalized, decide (normalized ≠ normalized))

/-- Status block surfaced per model by `list_models` (lines 270-295),
given the on-disk cache probe and the (already loaded) job entry. -/
structure ShownModel where
  status : String
  progress : Option ℚ
  message : Option String
  version : Option String
deriving DecidableEq

def listModelStatus (now : ℤ) (isCached : Bool) (desired : String)
    (entry : Option JobRecord) : ShownModel :=
  let e := entry.getD ⟨"idle", none, none, none, none⟩
  if e.status = "downloading" then
    match e.updatedAt with
    | some u =>
      if staleSeconds < now - u then
        ⟨"error", e.progress, some "Download timed out; please retry.", e.version⟩
      else ⟨"downloading", e.progress, e.message, e.version⟩
    | none => ⟨"downloading", e.progress, e.message, e.version⟩
  else if isCached = true ∧ e.status ≠ "error" ∧ e.status ≠ "needs_update" then
    ⟨"downloaded", some 1, e.message, some (e.version.getD desired)⟩
  else if e.status = "error" then ⟨"error", e.progress, e.message, e.version⟩
  else ⟨"idle", e.progress, e.message, e.version⟩

/-- Python dict assignment `state[name] = rec` on the (ordered) mapping:
update in place if present, else append. -/
def setEntry : JobMap → String → JobRecord → JobMap
  | [], k, v => [(k, v)]
  | (k2, v2) :: rest, k, v =>
    if k2 = k then (k, v) :: rest else (k2, v2) :: setEntry rest k v

/-- `_mark_state`: re-read (and re-normalize) the persisted mapping,
overwrite the model's entry with a fresh record stamped `now`, save. -/
def markState (now : ℤ) (raw : JobMap) (name status : String)
    (progress : Option ℚ) (message : Option String) (version : Option String) : JobMap :=
  setEntry (loadJobState now raw).1 name ⟨status, progress, message, version, some now⟩

def supportedModels : List String := ["tiny", "base", "small"]

/-- `MODEL_VERSIONS.get(name, "main")` — every pinned version is "main". -/
def desiredVersion (_name : String) : String := "main"

inductive DlOutcome
  | invalidName400
  | conflictInProgress409
  | conflictGlobal409
  | conflictLock409
  | alreadyDownloaded200
  | started200
deriving DecidableEq

structure DlResult where
  outcome : DlOutcome
  jobs : JobMap
  scheduledWorker : Bool
  semaphoreHeld : Bool
deriving DecidableEq

/-- Embedding of the `download_model` handler (lines 463-496).
`raw` is the on-disk `model_jobs.json` content; `isCached` the
`is_model_downloaded` probe; `semFree` whether the zero-wait acquire of
the cap-2 global semaphore succeeds; `lockFree` whether the per-model
lock acquire (1 s timeout) succeeds. `jobs` is the file content when the
handler returns: the read (`_current_state_for_model`) normalizes only
in memory and never rewrites the file, so every path that does not call
`_mark_state` leaves the file at `raw`; `_mark_state` itself re-reads
the (still raw) file, normalizes in memory, sets the entry and saves.
`scheduledWorker` is whether `_download_job` was scheduled,
`semaphoreHeld` the net semaphore permit passed to the worker. -/
def downloadModel (name : String) (raw : JobMap) (now : ℤ)
    (isCached semFree lockFree : Bool) : DlResult :=
  if name ∉ supportedModels then ⟨.invalidName400, raw, false, false⟩
  else
    let m := (loadJobState now raw).1
    let st := (m.lookup name).map (·.status)
    if st = some "downloading" then ⟨.conflictInProgress409, raw, false, false⟩
    else if isCached = true ∧ st ≠ some "error" ∧ st ≠ some "needs_update" then
      ⟨.alreadyDownloaded200,
        markState now raw name "downloaded" (some 1) none (some (desiredVersion name)),
        false, false⟩
    else if semFree = false then ⟨.conflictGlobal409, raw, false, false⟩
    else if lockFree = false then ⟨.conflictLock409, raw, false, false⟩
    else
      ⟨.started200,
        markState now raw name "downloading" (some 0) none (some (desiredVersion name)),
        true, true⟩

/- C3: the write path of `_save_job_state` (lines 113-120). The handler
opens the file with mode "w" — truncating it — and then streams
`json.dump(state, f)` into it. We model the sequence of on-disk contents
visible during the write. -/

def serializeString (s : String) : List Char := '"' :: s.toList ++ ['"']

def serializeOptStr : Option String → List Char
  | none => "null".toList
  | some s => serializeString s

def serializeOptQ : Option ℚ → List Char
  | none => "null".toList
  | some q => (toString q.num).toList ++ (if q.den = 1 then ".0".toList else ("/" ++ toString q.den).toList)

/-- Serialized timestamp: stand-in for the ISO `updated_at` string. -/
def serializeOptInt : Option ℤ → List Char
  | none => "null".toList
  | some n => '"' :: (toString n).toList ++ ['"']

/-- Model of `json.dump` for one job record. -/
def serializeJobRecord (r : JobRecord) : List Char :=
  "\x7b\"status\": ".toList ++ serializeString r.status
    ++ ", \"progress\": ".toList ++ serializeOptQ r.progress
    ++ ", \"message\": ".toList ++ serializeOptStr r.message
    ++ ", \"version\": ".toList ++ serializeOptStr r.version
    ++ ", \"updated_at\": ".toList ++ serializeOptInt r.updatedAt
    ++ "\x7d".toList

/-- Model of `json.dump` for the whole mapping. -/
def serializeJobs (m : JobMap) : List Char :=
  '\x7b' :: joinWith ", ".toList
      (m.map fun p => serializeString p.1 ++ ": ".toList ++ serializeJobRecord p.2)
    ++ ['\x7d']

/-- The on-disk contents observable while `_save_job_state` runs:
the prior content, then — after `open(path, "w")` truncates — every
prefix of the new serialization as `json.dump` streams it out. -/
def saveJobStateStates (oldContent : List Char) (st : JobMap) : List (List Char) :=
  let s := serializeJobs st
  oldContent :: (List.range (s.length + 1)).map fun k => s.take k

/- ==================================================================
   C2 — chunked transcription driver
   (backend/app/whisper_processor.py, transcribe_in_chunks, 723-780).
   ================================================================== -/

/-- Inputs of one `transcribe_in_chunks` run. `totalDuration = 0` is
the unknown-duration case (`float(info.get("duration_seconds") or 0.0)`
with the analyzer failure falling back to 0.0; Python truthiness then
disables every duration guard). `extractOk` and `transcribeText` are
the collaborator oracles, indexed by the window start offset
(`transcribeText s = none` models an exception). -/
structure ChunkCfg where
  chunkSec : ℤ
  strideSec : ℤ
  totalDuration : ℚ
  extractOk : ℚ → Bool
  transcribeText : ℚ → Option (List Char)

structure ChunkState where
  start : ℚ
  idx : ℕ
  parts : List (List Char)
deriving DecidableEq

/-- `max(0.1, float(chunk_sec - stride_sec))`. -/
def advanceStep (cfg : ChunkCfg) : ℚ :=
  max (1/10) ((cfg.chunkSec : ℚ) - (cfg.strideSec : ℚ))

inductive ChunkIter
  | running (s : ChunkState)
  | stopped (s : ChunkState)

/-- One iteration of the `while True` loop of `transcribe_in_chunks`:
the end-guard, the extraction attempt (failure advances and continues),
the transcription attempt (exception advances and continues), and the
yield/advance on success; `stopped` is a `break`. -/
def chunkStep (cfg : ChunkCfg) (s : ChunkState) : ChunkIter :=
  if cfg.totalDuration ≠ 0 ∧ cfg.totalDuration + 1/4 < s.start + (cfg.chunkSec : ℚ) then
    .stopped s
  else if cfg.extractOk s.start = false then
    if cfg.totalDuration ≠ 0 ∧ cfg.totalDuration ≤ s.start + advanceStep cfg then
      .stopped ⟨s.start + advanceStep cfg, s.idx, s.parts⟩
    else .running ⟨s.start + advanceStep cfg, s.idx, s.parts⟩
  else
    match cfg.transcribeText s.start with
    | none =>
      if cfg.totalDuration ≠ 0 ∧ cfg.totalDuration ≤ s.start + advanceStep cfg then
        .stopped ⟨s.start + advanceStep cfg, s.idx, s.parts⟩
      else .running ⟨s.start + advanceStep cfg, s.idx, s.parts⟩
    | some t =>
      if cfg.totalDuration ≠ 0 ∧ cfg.totalDuration ≤ s.start + advanceStep cfg then
        .stopped ⟨s.start + advanceStep cfg, s.idx + 1, if t ≠ [] then s.parts ++ [t] else s.parts⟩
      else .running ⟨s.start + advanceStep cfg, s.idx + 1, if t ≠ [] then s.parts ++ [t] else s.parts⟩

/-- The loop state after `n` iterations, from `start = 0.0, idx = 0`. -/
def iterChunk (cfg : ChunkCfg) : ℕ → ChunkIter
  | 0 => .running ⟨0, 0, []⟩
  | n + 1 =>
    match iterChunk cfg n with
    | .stopped s => .stopped s
    | .running s => chunkStep cfg s

/-- The loop reaches a `break` after finitely many iterations. -/
def chunkLoopTerminates (cfg : ChunkCfg) : Prop :=
  ∃ n s, iterChunk cfg n = ChunkIter.stopped s

/- ==================================================================
   C8 — progressive live chunk text subtraction
   (backend/app/main.py, live_chunk, lines 588-611, and
   whisper_processor.transcribe_audio line 447 which strips the text).
   ================================================================== -/

/-- The `text` field of a successful `transcribe_audio` result:
`result.get("text", "").strip()`. -/
def transcribeExtractText (raw : List Char) : List Char := pyStrip raw

/-- The `text_to_emit` computation of `live_chunk` given the chunk
index, the recorded per-chunk partials (`sess.partials`, index 0 being
the chunk-0 baseline) and the full transcription text of this chunk. -/
def liveChunkTextToEmit (idx : ℕ) (partials : List (List Char)) (fullText : List Char) : List Char :=
  if 0 < idx then
    let header := partials.headD []
    if header ≠ [] ∧ header <+: fullText then pyStrip (fullText.drop header.length)
    else fullText
  else fullText

/- ==================================================================
   C5 — transcription deduplication safety net.
   Modelled from the spec: the deduplication pass (spec §4.1 — segment
   dedup, then 8-word-window n-gram dedup with a 16-word minimum) is
   not present under src/; the definitions below follow the spec's
   algorithm description word by word.
   ================================================================== -/

def lowerWord (w : List Char) : List Char := w.map Char.toLower

/-- Modelled from the spec: "scan the concatenated text with an 8-word
sliding window; on the second occurrence of an identical lowercased
8-gram, skip the whole window". The scan walks the word list position
by position, remembering each lowercased 8-gram it passes; a window
whose 8-gram was already seen is skipped whole. The first argument is
recursion fuel, instantiated with the word count. -/
def ngramScanF : ℕ → List (List Char) → List (List (List Char)) → List (List Char)
  | 0, ws, _ => ws
  | _ + 1, [], _ => []
  | n + 1, w :: rest, seen =>
    if 8 ≤ (w :: rest).length then
      let gram := ((w :: rest).take 8).map lowerWord
      if gram ∈ seen then ngramScanF n ((w :: rest).drop 8) seen
      else w :: ngramScanF n rest (gram :: seen)
    else w :: ngramScanF n rest seen

def joinWords (ws : List (List Char)) : List Char := joinWith [' '] ws

/-- Modelled from the spec: the n-gram dedup pass over a text; with
fewer than 16 words the input is returned unchanged (spec §8 boundary
behavior), otherwise the de-duplicated words are space-joined. -/
def ngramDedupeText (t : List Char) : List Char :=
  let ws := runsOf t
  if ws.length < 16 then t
  else joinWords (ngramScanF ws.length ws [])

def normalizeSegText (t : List Char) : List Char := lowerWord (pyStrip t)

/-- Modelled from the spec: "drop any consecutive segment whose
normalized text equals the previous segment's, or whose text (if ≥ 10
chars) is contained in the previous text" (comparison against the
previous kept segment). -/
def segmentDedupeAux : List Char → List (List Char) → List (List Char)
  | _, [] => []
  | prev, s :: rest =>
    if normalizeSegText s = normalizeSegText prev ∨ (10 ≤ s.length ∧ s <:+: prev) then
      segmentDedupeAux prev rest
    else s :: segmentDedupeAux s rest

def segmentDedupe : List (List Char) → List (List Char)
  | [] => []
  | s :: rest => s :: segmentDedupeAux s rest

/-- Modelled from the spec: the full dedup safety net on a
transcription response — segment dedup, then the n-gram pass on the
concatenated text. -/
def dedupeTranscription (segments : List (List Char)) : List Char :=
  ngramDedupeText (joinWords (segmentDedupe segments))

/-- The dedup endomap on a transcription text (a one-segment response),
the `dedupe` of the spec's idempotence property. -/
def dedupeText (t : List Char) : List Char := dedupeTranscription [t]

/- ==================================================================
   C9 — txt export
   (backend/app/transcript_formatter.py, _format_text_content 31-56
   and create_txt 59-100). The date header and the title are passed as
   parameters (`datetime.now()` / `title or generated`); UTF-8
   encode-then-decode is the identity on the text and is elided.
   ================================================================== -/

/-- Case-insensitive literal matcher: drops `kw` (lowercase) from the
front of the input, case-insensitively, returning the remainder. -/
def dropCI : List Char → List Char → Option (List Char)
  | [], t => some t
  | _ :: _, [] => none
  | k :: ks, c :: cs => if c.toLower = k then dropCI ks cs else none

/-- The speaker-marker regex of `_format_text_content`:
`^(>>|(?:\[?Speaker\s*\d*\]?:?))\s*(.*)$` with IGNORECASE; returns
group 2 when the line matches. Greedy matching is deterministic here
because the tail `\s*(.*)$` always succeeds. -/
def speakerMatch (t : List Char) : Option (List Char) :=
  match t with
  | '>' :: '>' :: rest => some (rest.dropWhile pyWs)
  | _ =>
    let t1 := if t.head? = some '[' then t.tail else t
    match dropCI "speaker".toList t1 with
    | none => none
    | some r1 =>
      let r2 := r1.dropWhile pyWs
      let r3 := r2.dropWhile (·.isDigit)
      let r4 := if r3.head? = some ']' then r3.tail else r3
      let r5 := if r4.head? = some ':' then r4.tail else r4
      some (r5.dropWhile pyWs)

/-- Per-line transformation of `_format_text_content`. -/
def formatLine (l : List Char) : List Char :=
  let t := pyStrip l
  if t = [] then []
  else
    match speakerMatch t with
    | some g2 =>
      let st := pyStrip g2
      if st = [] then [] else '>' :: '>' :: ' ' :: st
    | none => t

/-- `_format_text_content`. -/
def formatTextContent (text : List Char) : List Char :=
  if pyStrip text = [] then []
  else joinWith ['\n'] ((splitLines (pyStrip text)).map formatLine)

/-- Body-line rendering inside `create_txt` (lines 86-93). -/
def renderTxtLine (l : List Char) : List Char :=
  let t := pyStrip l
  if t = [] then []
  else if t.take 2 = ['>', '>'] then ' ' :: ' ' :: pyStrip (t.drop 2)
  else ' ' :: ' ' :: ' ' :: ' ' :: t

/-- `create_txt`: the decoded UTF-8 content of the exported txt file. -/
def createTxt (title dateStr text : List Char) : List Char :=
  let formatted := formatTextContent text
  let divider := List.replicate 70 '─'
  let headerLines : List (List Char) :=
    [[], pyCenter 70 "TRANSCRIPT".toList, pyCenter 70 title, pyCenter 70 dateStr,
      [], divider, []]
  let bodyLines := (splitLines formatted).map renderTxtLine
  let footerLines : List (List Char) :=
    [[], divider, pyCenter 70 "END OF TRANSCRIPT".toList, []]
  joinWith ['\n'] (headerLines ++ bodyLines ++ footerLines)

/- ==================================================================
   Helper lemmas
   ================================================================== -/

theorem dropWhile_dropWhile (p : Char → Bool) (l : List Char) :
    List.dropWhile p (List.dropWhile p l) = List.dropWhile p l := by
  cases h : List.dropWhile p l with
  | nil => simp
  | cons a as =>
    have hpa := List.head?_dropWhile_not p l
    rw [h] at hpa
    simp only [List.head?_cons] at hpa
    simp [List.dropWhile_cons, hpa]

theorem preToInf {x y : List Char} (h : x <+: y) : x <:+: y := by
  obtain ⟨t, rfl⟩ := h
  exact ⟨[], t, by simp⟩

theorem sufToInf {x y : List Char} (h : x <:+ y) : x <:+: y := by
  obtain ⟨s, rfl⟩ := h
  exact ⟨s, [], by simp⟩

theorem infAppendLeft {x y : List Char} (z : List Char) (h : x <:+: y) : x <:+: z ++ y := by
  obtain ⟨s, t, rfl⟩ := h
  exact ⟨z ++ s, t, by simp⟩

theorem infAppendRight {x y : List Char} (z : List Char) (h : x <:+: y) : x <:+: y ++ z := by
  obtain ⟨s, t, rfl⟩ := h
  exact ⟨s, t ++ z, by simp⟩

theorem trimRight_pre (l : List Char) : trimRight l <+: l := by
  refine ⟨(l.reverse.takeWhile pyWs).reverse, ?_⟩
  rw [trimRight, ← List.reverse_append, List.takeWhile_append_dropWhile, List.reverse_reverse]

theorem trimLeft_of_trimLeft (l : List Char) : trimLeft (trimLeft l) = trimLeft l :=
  dropWhile_dropWhile pyWs l

theorem trimRight_of_trimRight (l : List Char) : trimRight (trimRight l) = trimRight l := by
  unfold trimRight
  rw [List.reverse_reverse, dropWhile_dropWhile]

theorem trimLeft_fixed_of_pre {x y : List Char} (hx : trimLeft x = x) (h : y <+: x) :
    trimLeft y = y := by
  cases y with
  | nil => rfl
  | cons c ys =>
    obtain ⟨t, rfl⟩ := h
    have hc : pyWs c = false := by
      by_contra hcc
      rw [Bool.not_eq_false] at hcc
      unfold trimLeft at hx
      rw [List.cons_append, List.dropWhile_cons_of_pos hcc] at hx
      have hlen : (List.dropWhile pyWs (ys ++ t)).length ≤ (ys ++ t).length :=
        (List.dropWhile_sublist _).length_le
      rw [hx] at hlen
      simp at hlen
    unfold trimLeft
    rw [List.dropWhile_cons_of_neg (by simp [hc])]

theorem pyStrip_idem (l : List Char) : pyStrip (pyStrip l) = pyStrip l := by
  unfold pyStrip
  have h2 : trimLeft (trimRight (trimLeft l)) = trimRight (trimLeft l) :=
    trimLeft_fixed_of_pre (trimLeft_of_trimLeft l) (trimRight_pre _)
  rw [h2, trimRight_of_trimRight]

theorem pyStrip_inf (l : List Char) : pyStrip l <:+: l := by
  obtain ⟨t, ht⟩ := trimRight_pre (trimLeft l)
  refine ⟨List.takeWhile pyWs l, t, ?_⟩
  have h2 : pyStrip l ++ t = List.dropWhile pyWs l := ht
  show List.takeWhile pyWs l ++ pyStrip l ++ t = l
  rw [List.append_assoc, h2]
  exact List.takeWhile_append_dropWhile pyWs l

/- ==================================================================
   C6 — sentiment classification theorems
   ================================================================== -/

/-- C6 (counterexample): the claim that the returned `sentiment_score`
always equals `round(100 × compound)` is false: at compound = 0.04 the
code classifies `neutral` and returns a hard 0, while round(100 × 0.04)
is 4 (truncation, not rounding, is also used on the other branches). -/
theorem c6_counterexample :
    ¬ ∀ compound : ℚ,
        (classifySentiment compound).sentimentScore = round (100 * compound) := by
  intro h
  have h4 := h (1/25)
  have hval : (classifySentiment (1/25)).sentimentScore = 0 := by
    norm_num [classifySentiment]
  rw [hval] at h4
  norm_num at h4

/-- C6 (amended): the classification is `positive` iff compound ≥ 0.05,
`negative` iff compound ≤ −0.05 and `neutral` otherwise; the returned
`sentiment_score` is the Python `int()` truncation of `compound * 100`
on the positive/negative branches and 0 on the neutral branch. -/
theorem c6_sentiment_classification (compound : ℚ) :
    ((classifySentiment compound).sentiment = "positive" ↔ 1/20 ≤ compound) ∧
    ((classifySentiment compound).sentiment = "negative" ↔ compound ≤ -(1/20)) ∧
    ((classifySentiment compound).sentiment = "neutral" ↔
      -(1/20) < compound ∧ compound < 1/20) ∧
    (classifySentiment compound).sentimentScore =
      (if 1/20 ≤ compound ∨ compound ≤ -(1/20) then ratTrunc (compound * 100) else 0) := by
  have hpn : ("positive" : String) ≠ "negative" := by decide
  have hpu : ("positive" : String) ≠ "neutral" := by decide
  have hnp : ("negative" : String) ≠ "positive" := by decide
  have hnu : ("negative" : String) ≠ "neutral" := by decide
  have hup : ("neutral" : String) ≠ "positive" := by decide
  have hun : ("neutral" : String) ≠ "negative" := by decide
  unfold classifySentiment
  by_cases h1 : 1/20 ≤ compound
  · rw [if_pos h1]
    have hn : ¬ compound ≤ -(1/20) := by linarith
    have hn2 : ¬ compound < 1/20 := by linarith
    exact ⟨iff_of_true rfl h1, iff_of_false (fun hc => hpn hc) hn,
      iff_of_false (fun hc => hpu hc) (fun hc => hn2 hc.2), by rw [if_pos (Or.inl h1)]⟩
  · rw [if_neg h1]
    by_cases h2 : compound ≤ -(1/20)
    · rw [if_pos h2]
      have hp : ¬ -(1/20) < compound := by linarith
      exact ⟨iff_of_false (fun hc => hnp hc) h1, iff_of_true rfl h2,
        iff_of_false (fun hc => hnu hc) (fun hc => hp hc.1), by rw [if_pos (Or.inr h2)]⟩
    · rw [if_neg h2]
      exact ⟨iff_of_false (fun hc => hup hc) h1, iff_of_false (fun hc => hun hc) h2,
        iff_of_true rfl ⟨not_le.mp h2, not_le.mp h1⟩,
        by rw [if_neg (not_or.mpr ⟨h1, h2⟩)]⟩

/- ==================================================================
   C10 — pagination theorems
   ================================================================== -/

/-- C10: with `limit = 0` the page computation `offset // limit` raises
`ZeroDivisionError`, surfaced by the handler as HTTP 500 even though the
database query succeeded; any `limit ≥ 1` makes the computation total,
returning the floor-division page number. -/
theorem c10_limit_zero_results (limit offset : ℤ) (calls : List String) :
    (limit = 0 → getPipelineResults limit offset calls = Except.error 500) ∧
    (1 ≤ limit → ∃ p : ResultsPage,
      getPipelineResults limit offset calls = Except.ok p ∧
      p.page = Int.fdiv offset limit + 1 ∧ p.total = calls.length) := by
  constructor
  · intro h
    subst h
    simp [getPipelineResults, pythonFloorDiv]
  · intro h
    have hne : limit ≠ 0 := by omega
    refine ⟨⟨(calls.drop offset.toNat).take limit.toNat, calls.length,
        Int.fdiv offset limit + 1, limit⟩, ?_, rfl, rfl⟩
    simp [getPipelineResults, pythonFloorDiv, hne]

/-- C10 (witness): concrete instances of both branches. -/
theorem c10_limit_zero_results_witness :
    getPipelineResults 0 40 ["a", "b"] = Except.error 500 ∧
    ∃ p : ResultsPage, getPipelineResults 2 1 ["a", "b"] = Except.ok p ∧
      p.page = Int.fdiv 1 2 + 1 ∧ p.total = 2 :=
  ⟨(c10_limit_zero_results 0 40 ["a", "b"]).1 rfl,
   (c10_limit_zero_results 2 1 ["a", "b"]).2 (by norm_num)⟩

/- ==================================================================
   C1 — event bus theorems
   ================================================================== -/

theorem publishAll_queue (es : List BusEvent) : ∀ s : BusState,
    (publishAll s es).queue = s.queue ++ es := by
  induction es with
  | nil => intro s; simp [publishAll]
  | cons e rest ih =>
    intro s
    show (publishAll (publish s e) rest).queue = _
    rw [ih (publish s e)]
    simp [publish]

theorem publishAll_buffer (es : List BusEvent) : ∀ s : BusState,
    s.buffer.length + es.length ≤ s.bufSize →
    (publishAll s es).buffer = s.buffer ++ es := by
  induction es with
  | nil => intro s _; simp [publishAll]
  | cons e rest ih =>
    intro s hlen
    show (publishAll (publish s e) rest).buffer = _
    have hb : (publish s e).buffer = s.buffer ++ [e] := by
      simp only [publish]
      rw [if_neg]
      simp at hlen ⊢
      omega
    have hsz : (publish s e).bufSize = s.bufSize := rfl
    rw [ih (publish s e) (by rw [hb, hsz]; simp at hlen ⊢; omega), hb]
    simp

theorem consume_append_no_complete (a b : List BusEvent)
    (h : ∀ e ∈ a, e.type ≠ "complete") :
    consumeUntilComplete (a ++ b) = a ++ consumeUntilComplete b := by
  induction a with
  | nil => simp
  | cons e rest ih =>
    have he : e.type ≠ "complete" := h e (List.mem_cons_self e rest)
    have ih2 := ih fun x hx => h x (List.mem_cons_of_mem e hx)
    simp only [List.cons_append, consumeUntilComplete, if_neg he, List.append_eq]
    rw [ih2]

/-- C1 (counterexample): a subscriber that subscribes after exactly
three partial events were published (and is the only consumer of the
session queue) receives those events twice: once from the ring-buffer
snapshot and once again from the still-unconsumed queue — refuting
"with no event delivered to that subscriber twice" and "the first three
events received are exactly those three partials, once each". -/
theorem c1_counterexample :
    subscriberDeliveries
        (publishAll (initBus 100)
          [⟨"partial", some 0, "t0"⟩, ⟨"partial", some 1, "t1"⟩, ⟨"partial", some 2, "t2"⟩]) []
      = [⟨"partial", some 0, "t0"⟩, ⟨"partial", some 1, "t1"⟩, ⟨"partial", some 2, "t2"⟩,
         ⟨"partial", some 0, "t0"⟩, ⟨"partial", some 1, "t1"⟩, ⟨"partial", some 2, "t2"⟩] ∧
    (subscriberDeliveries
        (publishAll (initBus 100)
          [⟨"partial", some 0, "t0"⟩, ⟨"partial", some 1, "t1"⟩, ⟨"partial", some 2, "t2"⟩]) []).count
        ⟨"partial", some 0, "t0"⟩ = 2 := by
  constructor <;> rfl

/-- C1 (amended): a sole subscriber that subscribes after the
non-complete events `es` (at most the buffer capacity) were published
receives the ring-buffer snapshot `es` in publication order, then the
same still-queued events `es` again, then subsequently published events
in publication order up to and including the first `complete`. -/
theorem c1_subscribe_replay (es future : List BusEvent)
    (hlen : es.length ≤ 100) (hnc : ∀ e ∈ es, e.type ≠ "complete") :
    subscriberDeliveries (publishAll (initBus 100) es) future =
      es ++ es ++ consumeUntilComplete future := by
  unfold subscriberDeliveries
  rw [publishAll_queue es (initBus 100), publishAll_buffer es (initBus 100) (by simp [initBus]; omega)]
  simp only [initBus, List.nil_append]
  rw [consume_append_no_complete es future hnc, List.append_assoc]

/-- C1 (witness). -/
theorem c1_subscribe_replay_witness :
    subscriberDeliveries (publishAll (initBus 100) [⟨"partial", some 0, "x"⟩])
        [⟨"complete", none, ""⟩] =
      [⟨"partial", some 0, "x"⟩, ⟨"partial", some 0, "x"⟩, ⟨"complete", none, ""⟩] :=
  (c1_subscribe_replay [⟨"partial", some 0, "x"⟩] [⟨"complete", none, ""⟩]
      (by norm_num) (by decide)).trans (by rfl)

/- ==================================================================
   C7 — stale-download normalization theorems
   ================================================================== -/

theorem lookup_map_normalize (f : JobRecord → JobRecord) (name : String) (raw : JobMap) :
    List.lookup name (raw.map fun p => (p.1, f p.2)) = (List.lookup name raw).map f := by
  induction raw with
  | nil => rfl
  | cons p rest ih =>
    obtain ⟨k, v⟩ := p
    cases hk : name == k with
    | true => simp [List.lookup, hk]
    | false => simp [List.lookup, hk, ih]

theorem lookup_setEntry_self (k : String) (v : JobRecord) (m : JobMap) :
    List.lookup k (setEntry m k v) = some v := by
  induction m with
  | nil => simp [setEntry, List.lookup]
  | cons p rest ih =>
    obtain ⟨k2, v2⟩ := p
    by_cases hk : k2 = k
    · subst hk
      simp [setEntry, List.lookup]
    · have hbk : (k == k2) = false := beq_eq_false_iff_ne.mpr (Ne.symm hk)
      simp [setEntry, hk, List.lookup, hbk, ih]

/-- C7: the claim fails on the code at its own concrete scenario (a
`base` entry 30 minutes old). Reading does normalize the stale entry in
memory — the entry comes back as `error` with message "Download timed
out; please retry." and the `/models` listing surfaces exactly that —
but the persisted file is NOT rewritten: `_load_job_state` mutates the
entry dicts in place and stores the same objects in `normalized`, so
the `normalized != raw` guard compares the normalized mapping with
itself, never fires, and `_save_job_state` is never called from the
read path. The on-disk entry still says `downloading`. -/
theorem c7_stale_read_no_rewrite :
    List.lookup "base"
        (loadJobState 1800 [("base", ⟨"downloading", some 0, none, some "main", some 0⟩)]).1 =
      some (staleErrorRecord ⟨"downloading", some 0, none, some "main", some 0⟩ 1800) ∧
    (listModelStatus 1800 true "main"
        (List.lookup "base"
          (loadJobState 1800 [("base", ⟨"downloading", some 0, none, some "main", some 0⟩)]).1)).status =
      "error" ∧
    (listModelStatus 1800 true "main"
        (List.lookup "base"
          (loadJobState 1800 [("base", ⟨"downloading", some 0, none, some "main", some 0⟩)]).1)).message =
      some "Download timed out; please retry." ∧
    (loadJobState 1800 [("base", ⟨"downloading", some 0, none, some "main", some 0⟩)]).2 = false := by
  refine ⟨by decide, by decide, by decide, ?_⟩
  decide

/- ==================================================================
   C4 — download endpoint theorems
   ================================================================== -/

/-- C4 (counterexample): a persisted status of `downloading` does not
always produce a 409 conflict: when the entry is stale (here 30 minutes
old), the read normalizes it to `error`, the handler proceeds, starts a
new download and rewrites the state — refuting clause (1) of the claim
("fails with a conflict (409) without changing state"). -/
theorem c4_counterexample :
    (List.lookup "tiny"
        [("tiny", (⟨"downloading", some 0, none, some "main", some 0⟩ : JobRecord))]).map
        (·.status) = some "downloading" ∧
    (downloadModel "tiny" [("tiny", ⟨"downloading", some 0, none, some "main", some 0⟩)]
        1800 false true true).outcome = DlOutcome.started200 ∧
    DlOutcome.started200 ≠ DlOutcome.conflictInProgress409 := by
  refine ⟨rfl, ?_, by decide⟩
  rfl

/-- C4 (amended): `download_model` behaves as claimed with the
downloading-conflict clause restricted to entries that are still
`downloading` after the in-memory stale-normalization performed on
read: 400 for unsupported names; 409 leaving the persisted mapping
untouched (the read never rewrites the file) when the normalized status
is `downloading`; immediate `downloaded` without semaphore or worker
when cached and not error/needs_update; otherwise success exactly when
the zero-wait semaphore acquire and the per-model lock acquire both
succeed, 409 — again with the file untouched — in either other case. -/
theorem c4_download_flow (name : String) (raw : JobMap) (now : ℤ)
    (isCached semFree lockFree : Bool) :
    (name ∉ supportedModels →
      downloadModel name raw now isCached semFree lockFree =
        ⟨DlOutcome.invalidName400, raw, false, false⟩) ∧
    (name ∈ supportedModels →
      ((((loadJobState now raw).1.lookup name).map (·.status) = some "downloading" →
        downloadModel name raw now isCached semFree lockFree =
          ⟨DlOutcome.conflictInProgress409, raw, false, false⟩) ∧
       (((loadJobState now raw).1.lookup name).map (·.status) ≠ some "downloading" →
        isCached = true →
        ((loadJobState now raw).1.lookup name).map (·.status) ≠ some "error" →
        ((loadJobState now raw).1.lookup name).map (·.status) ≠ some "needs_update" →
        (downloadModel name raw now isCached semFree lockFree).outcome =
            DlOutcome.alreadyDownloaded200 ∧
        (downloadModel name raw now isCached semFree lockFree).scheduledWorker = false ∧
        (downloadModel name raw now isCached semFree lockFree).semaphoreHeld = false ∧
        (((downloadModel name raw now isCached semFree lockFree).jobs.lookup name).map
            (·.status) = some "downloaded")) ∧
       (((loadJobState now raw).1.lookup name).map (·.status) ≠ some "downloading" →
        (isCached = false ∨
          ((loadJobState now raw).1.lookup name).map (·.status) = some "error" ∨
          ((loadJobState now raw).1.lookup name).map (·.status) = some "needs_update") →
        ((semFree = false →
            downloadModel name raw now isCached semFree lockFree =
              ⟨DlOutcome.conflictGlobal409, raw, false, false⟩) ∧
         (semFree = true → lockFree = false →
            downloadModel name raw now isCached semFree lockFree =
              ⟨DlOutcome.conflictLock409, raw, false, false⟩) ∧
         (semFree = true → lockFree = true →
            (downloadModel name raw now isCached semFree lockFree).outcome =
                DlOutcome.started200 ∧
            (downloadModel name raw now isCached semFree lockFree).scheduledWorker = true ∧
            (downloadModel name raw now isCached semFree lockFree).semaphoreHeld = true ∧
            (((downloadModel name raw now isCached semFree lockFree).jobs.lookup name).map
                (·.status) = some "downloading")))))) := by
  constructor
  · intro hn
    simp [downloadModel, hn]
  · intro hn
    have hin : ¬ name ∉ supportedModels := fun hc => hc hn
    refine ⟨?_, ?_, ?_⟩
    · intro hdl
      simp [downloadModel, hin, hdl]
    · intro hdl hc he hnu
      have hcond : isCached = true ∧
          ((loadJobState now raw).1.lookup name).map (·.status) ≠ some "error" ∧
          ((loadJobState now raw).1.lookup name).map (·.status) ≠ some "needs_update" :=
        ⟨hc, he, hnu⟩
      have hdm : downloadModel name raw now isCached semFree lockFree =
          ⟨DlOutcome.alreadyDownloaded200,
            markState now raw name "downloaded" (some 1) none
              (some (desiredVersion name)), false, false⟩ := by
        simp only [downloadModel, if_neg hin, if_neg hdl, if_pos hcond]
      rw [hdm]
      refine ⟨rfl, rfl, rfl, ?_⟩
      simp only [markState]
      rw [lookup_setEntry_self]
      rfl
    · intro hdl hnc
      have hcond : ¬ (isCached = true ∧
          ((loadJobState now raw).1.lookup name).map (·.status) ≠ some "error" ∧
          ((loadJobState now raw).1.lookup name).map (·.status) ≠ some "needs_update") := by
        rcases hnc with h | h | h
        · intro hc
          rw [hc.1] at h
          exact absurd h (by decide)
        · intro hc
          exact hc.2.1 h
        · intro hc
          exact hc.2.2 h
      refine ⟨?_, ?_, ?_⟩
      · intro hs
        subst hs
        simp only [downloadModel, if_neg hin, if_neg hdl, if_neg hcond]
        rw [if_pos trivial]
      · intro hs hl
        subst hs
        subst hl
        simp only [downloadModel, if_neg hin, if_neg hdl, if_neg hcond]
        rw [if_neg (by decide : ¬ (true = false)), if_pos trivial]
      · intro hs hl
        subst hs
        subst hl
        have hdm : downloadModel name raw now isCached true true =
            ⟨DlOutcome.started200,
              markState now raw name "downloading" (some 0) none
                (some (desiredVersion name)), true, true⟩ := by
          simp only [downloadModel, if_neg hin, if_neg hdl, if_neg hcond,
            if_neg (by decide : ¬ (true = false))]
        rw [hdm]
        refine ⟨rfl, rfl, rfl, ?_⟩
        simp only [markState]
        rw [lookup_setEntry_self]
        rfl

/-- C4 (witness): concrete instances — an already-cached `base` model
returns `downloaded` without scheduling a worker; a free semaphore and
lock start a `tiny` download. -/
theorem c4_download_flow_witness :
    ((downloadModel "base" [] 0 true true true).outcome = DlOutcome.alreadyDownloaded200 ∧
     (downloadModel "base" [] 0 true true true).scheduledWorker = false ∧
     (downloadModel "base" [] 0 true true true).semaphoreHeld = false ∧
     (((downloadModel "base" [] 0 true true true).jobs.lookup "base").map
        (·.status) = some "downloaded")) ∧
    (downloadModel "tiny" [] 0 false false true =
      ⟨DlOutcome.conflictGlobal409, [], false, false⟩) :=
  ⟨(((c4_download_flow "base" [] 0 true true true).2 (by decide)).2.1
      (by decide) rfl (by decide) (by decide)),
   ((((c4_download_flow "tiny" [] 0 false false true).2 (by decide)).2.2
      (by decide) (Or.inl rfl)).1 rfl)⟩

/- ==================================================================
   C3 — job-state write is not an atomic replace
   ================================================================== -/

/-- C3: `_save_job_state` truncates `model_jobs.json` in place
(`open(path, "w")`) before `json.dump` writes the new serialization, so
the empty file is an observable intermediate state that is neither the
prior snapshot nor the new one — the write is not an atomic replace.
Here: marking `tiny` as `downloading` over a prior `downloaded`
snapshot exposes the empty intermediate state. -/
theorem c3_nonatomic_write :
    ([] : List Char) ∈ saveJobStateStates
        (serializeJobs [("tiny", ⟨"downloaded", none, none, some "main", none⟩)])
        [("tiny", ⟨"downloading", none, none, some "main", none⟩)] ∧
    ([] : List Char) ≠ serializeJobs [("tiny", ⟨"downloaded", none, none, some "main", none⟩)] ∧
    ([] : List Char) ≠ serializeJobs [("tiny", ⟨"downloading", none, none, some "main", none⟩)] := by
  refine ⟨?_, by decide, by decide⟩
  decide

/- ==================================================================
   C2 — chunked-driver termination theorems
   ================================================================== -/

theorem advanceStep_pos (cfg : ChunkCfg) : 0 < advanceStep cfg :=
  lt_of_lt_of_le (by norm_num) (le_max_left _ _)

theorem one_tenth_le_advanceStep (cfg : ChunkCfg) : 1/10 ≤ advanceStep cfg :=
  le_max_left _ _

theorem chunkStep_running_start {cfg : ChunkCfg} {s s2 : ChunkState}
    (h : chunkStep cfg s = ChunkIter.running s2) :
    s2.start = s.start + advanceStep cfg ∧
      (cfg.totalDuration ≠ 0 → s2.start < cfg.totalDuration) := by
  unfold chunkStep at h
  by_cases hA : cfg.totalDuration ≠ 0 ∧ cfg.totalDuration + 1/4 < s.start + (cfg.chunkSec : ℚ)
  · rw [if_pos hA] at h
    cases h
  · rw [if_neg hA] at h
    by_cases hB : cfg.extractOk s.start = false
    · rw [if_pos hB] at h
      by_cases hC : cfg.totalDuration ≠ 0 ∧ cfg.totalDuration ≤ s.start + advanceStep cfg
      · rw [if_pos hC] at h
        cases h
      · rw [if_neg hC] at h
        cases h
        exact ⟨rfl, fun ht => not_le.mp fun hc => hC ⟨ht, hc⟩⟩
    · rw [if_neg hB] at h
      rcases hm : cfg.transcribeText s.start with _ | t <;> simp only [hm] at h <;>
        by_cases hC : cfg.totalDuration ≠ 0 ∧ cfg.totalDuration ≤ s.start + advanceStep cfg
      · rw [if_pos hC] at h
        cases h
      · rw [if_neg hC] at h
        cases h
        exact ⟨rfl, fun ht => not_le.mp fun hc => hC ⟨ht, hc⟩⟩
      · rw [if_pos hC] at h
        cases h
      · rw [if_neg hC] at h
        cases h
        exact ⟨rfl, fun ht => not_le.mp fun hc => hC ⟨ht, hc⟩⟩

theorem iterChunk_running_start (cfg : ChunkCfg) :
    ∀ n s, iterChunk cfg n = ChunkIter.running s → s.start = n * advanceStep cfg := by
  intro n
  induction n with
  | zero =>
    intro s h
    cases h
    simp
  | succ m ih =>
    intro s h
    rw [iterChunk] at h
    rcases hm : iterChunk cfg m with s0 | s0 <;> rw [hm] at h
    · have h0 := ih s0 hm
      have h1 := (chunkStep_running_start h).1
      rw [h1, h0]
      push_cast
      ring
    · cases h

/-- C2 (counterexample): `transcribe_in_chunks` does not terminate for
every input. With an unknown total duration (the analyzer reports 0.0)
and a window extraction that keeps failing, the loop advances to the
next window forever — extraction failure `continue`s instead of
stopping, and no duration guard is active. -/
theorem c2_counterexample :
    ¬ chunkLoopTerminates ⟨15, 5, 0, fun _ => false, fun _ => none⟩ := by
  have key : ∀ n, iterChunk ⟨15, 5, 0, fun _ => false, fun _ => none⟩ n =
      ChunkIter.running ⟨10 * n, 0, []⟩ := by
    intro n
    induction n with
    | zero =>
      rw [iterChunk]
      norm_num
    | succ m ih =>
      rw [iterChunk, ih]
      show chunkStep _ _ = _
      unfold chunkStep
      have hadv : advanceStep ⟨15, 5, 0, fun _ => false, fun _ => none⟩ = 10 := by
        unfold advanceStep
        norm_num
      rw [hadv, if_neg (by simp), if_pos rfl, if_neg (by simp)]
      simp only [ChunkIter.running.injEq, ChunkState.mk.injEq]
      refine ⟨?_, trivial, trivial⟩
      push_cast
      ring
  rintro ⟨n, s, hstop⟩
  rw [key n] at hstop
  cases hstop

/-- C2 (amended): whenever the total duration is known (nonzero, after
Python truthiness), the loop terminates for every oracle behavior: each
iteration advances the window start by `max(0.1, chunk_sec − stride_sec)`
(so `stride_sec ≥ chunk_sec` clamps to 0.1 s) and iteration stops once
the start offset reaches the total duration. With an unknown duration
the loop has no stopping condition of its own: extraction failure
advances to the next window rather than ending emission. -/
theorem c2_terminates_of_known_duration (cfg : ChunkCfg)
    (h : cfg.totalDuration ≠ 0) : chunkLoopTerminates cfg := by
  set a := advanceStep cfg with ha
  have hapos : 0 < a := advanceStep_pos cfg
  set N : ℕ := ⌈cfg.totalDuration / a⌉₊ + 1 with hN
  rcases hiter : iterChunk cfg N with s | s
  · exfalso
    have hstart : s.start = N * a := iterChunk_running_start cfg N s hiter
    have hlt : s.start < cfg.totalDuration := by
      rw [hN] at hiter
      rw [iterChunk] at hiter
      rcases hm : iterChunk cfg (⌈cfg.totalDuration / a⌉₊) with s0 | s0 <;> rw [hm] at hiter
      · exact (chunkStep_running_start hiter).2 h
      · cases hiter
    have hge : cfg.totalDuration ≤ (N : ℚ) * a := by
      rcases le_or_lt cfg.totalDuration 0 with hd | hd
      · exact hd.trans (by positivity)
      · calc cfg.totalDuration ≤ (⌈cfg.totalDuration / a⌉₊ : ℚ) * a := by
              rw [← div_le_iff₀ hapos]
              exact Nat.le_ceil _
          _ ≤ (N : ℚ) * a := by
              have : ((⌈cfg.totalDuration / a⌉₊ : ℕ) : ℚ) ≤ (N : ℚ) := by
                rw [hN]
                push_cast
                linarith
              exact mul_le_mul_of_nonneg_right this hapos.le
    rw [hstart] at hlt
    linarith
  · exact ⟨N, s, hiter⟩

/-- C2 (witness). -/
theorem c2_terminates_witness :
    (30 : ℚ) ≠ 0 ∧
    chunkLoopTerminates ⟨15, 5, 30, fun _ => true, fun _ => some ['h', 'i']⟩ :=
  ⟨by norm_num,
   c2_terminates_of_known_duration ⟨15, 5, 30, fun _ => true, fun _ => some ['h', 'i']⟩
     (by norm_num)⟩

/- ==================================================================
   C8 — live chunk text subtraction theorem
   ================================================================== -/

/-- C8: for a live chunk with index ≥ 1 whose transcode and
transcription succeed, the emitted text is the whitespace-stripped
remainder of the (stripped) transcription result after removing the
chunk-0 baseline prefix when the result starts with that baseline
(including the vacuous empty-baseline case, where the already-stripped
full result is emitted unchanged), and the full result unchanged when a
non-empty baseline is not a prefix. -/
theorem c8_live_emit (idx : ℕ) (partials : List (List Char)) (raw : List Char)
    (hidx : 1 ≤ idx) :
    ((partials.headD []) <+: transcribeExtractText raw →
      liveChunkTextToEmit idx partials (transcribeExtractText raw) =
        pyStrip ((transcribeExtractText raw).drop (partials.headD []).length)) ∧
    ((partials.headD []) ≠ [] → ¬ (partials.headD []) <+: transcribeExtractText raw →
      liveChunkTextToEmit idx partials (transcribeExtractText raw) =
        transcribeExtractText raw) := by
  have hpos : 0 < idx := hidx
  constructor
  · intro hpre
    by_cases hb : (partials.headD []) = []
    · rw [liveChunkTextToEmit, if_pos hpos, if_neg (fun hc => hc.1 hb), hb]
      simp only [List.length_nil, List.drop_zero]
      exact (pyStrip_idem raw).symm
    · rw [liveChunkTextToEmit, if_pos hpos, if_pos ⟨hb, hpre⟩]
  · intro hb hnpre
    rw [liveChunkTextToEmit, if_pos hpos, if_neg (fun hc => hnpre hc.2)]

/-- C8 (witness). -/
theorem c8_live_emit_witness :
    liveChunkTextToEmit 1 [['h', 'i']] (transcribeExtractText (' ' :: "hi you".toList)) =
      "you".toList :=
  ((c8_live_emit 1 [['h', 'i']] (' ' :: "hi you".toList) (by norm_num)).1
    (by decide)).trans (by decide)

/- ==================================================================
   C5 — deduplication theorems (spec-modelled)
   ================================================================== -/

/-- C5 (counterexample): the dedup pass is not idempotent. In this
36-word text the first pass skips a duplicated 8-gram window and
thereby juxtaposes a second copy of an already-seen 8-gram, which only
the second pass removes: `dedupe(dedupe(x)) ≠ dedupe(x)`. -/
theorem c5_counterexample :
    dedupeText (dedupeText
        ("p q r s t u v w a b c d e f g h a b c d p q r s t u v w e f g h x y z k").toList) ≠
      dedupeText
        ("p q r s t u v w a b c d e f g h a b c d p q r s t u v w e f g h x y z k").toList := by
  decide

/-- C5 (amended): the n-gram pass returns any input of fewer than 16
words unchanged, and the dedup endomap is idempotent on every input
whose dedup output has fewer than 16 words; in general a second pass
can strictly reduce the text further. -/
theorem c5_dedupe_short_input (t : List Char) :
    ((runsOf t).length < 16 → ngramDedupeText t = t) ∧
    ((runsOf (dedupeText t)).length < 16 → dedupeText (dedupeText t) = dedupeText t) := by
  have hsingle : ∀ u : List Char, dedupeText u = ngramDedupeText u := by
    intro u
    rfl
  constructor
  · intro hlen
    rw [ngramDedupeText, if_pos hlen]
  · intro hlen
    rw [hsingle (dedupeText t), ngramDedupeText, if_pos hlen]

/-- C5 (witness). -/
theorem c5_dedupe_short_input_witness :
    ngramDedupeText ("hello world hello world").toList = ("hello world hello world").toList ∧
    dedupeText (dedupeText ("hello world hello world").toList) =
      dedupeText ("hello world hello world").toList :=
  ⟨(c5_dedupe_short_input ("hello world hello world").toList).1 (by decide),
   (c5_dedupe_short_input ("hello world hello world").toList).2 (by decide)⟩

/- ==================================================================
   C9 — txt-export round-trip lemmas
   ================================================================== -/

theorem runsOf_cons_ws {c : Char} (h : pyWs c = true) (rest : List Char) :
    runsOf (c :: rest) = runsOf rest := by
  simp [runsOf, h]

theorem runsOf_singleton {c : Char} (h : pyWs c = false) : runsOf [c] = [[c]] := by
  simp [runsOf, h]

theorem runsOf_cons_cons_ws {c d : Char} (hc : pyWs c = false) (hd : pyWs d = true)
    (t : List Char) : runsOf (c :: d :: t) = [c] :: runsOf t := by
  show (if pyWs c then runsOf (d :: t)
    else if pyWs d then [c] :: runsOf (d :: t) else consRun c (runsOf (d :: t))) = _
  rw [if_neg (by simp [hc]), if_pos hd, runsOf_cons_ws hd t]

theorem runsOf_cons_cons_nws {c d : Char} (hc : pyWs c = false) (hd : pyWs d = false)
    (t : List Char) : runsOf (c :: d :: t) = consRun c (runsOf (d :: t)) := by
  show (if pyWs c then runsOf (d :: t)
    else if pyWs d then [c] :: runsOf (d :: t) else consRun c (runsOf (d :: t))) = _
  rw [if_neg (by simp [hc]), if_neg (by simp [hd])]

theorem consRun_ne_nil (c : Char) (x : List (List Char)) : consRun c x ≠ [] := by
  cases x <;> simp [consRun]

theorem runsOf_cons_ne_nil {d : Char} (hd : pyWs d = false) (t : List Char) :
    runsOf (d :: t) ≠ [] := by
  rcases t with _ | ⟨e, t2⟩
  · rw [runsOf_singleton hd]
    simp
  · rcases he : pyWs e with _ | _
    · rw [runsOf_cons_cons_nws hd he t2]
      exact consRun_ne_nil d _
    · rw [runsOf_cons_cons_ws hd he t2]
      simp

theorem runsOf_head_pre {d : Char} (hd : pyWs d = false) (t : List Char) :
    ∃ r rs, runsOf (d :: t) = r :: rs ∧ r <+: (d :: t) := by
  induction t generalizing d with
  | nil => exact ⟨[d], [], runsOf_singleton hd, ⟨[], rfl⟩⟩
  | cons e t2 ih =>
    rcases he : pyWs e with _ | _
    · obtain ⟨r, rs, hrr, hpre⟩ := ih he
      refine ⟨d :: r, rs, ?_, ?_⟩
      · rw [runsOf_cons_cons_nws hd he t2, hrr]
        rfl
      · obtain ⟨u, hu⟩ := hpre
        exact ⟨u, by rw [List.cons_append, hu]⟩
    · exact ⟨[d], runsOf t2, runsOf_cons_cons_ws hd he t2, ⟨e :: t2, rfl⟩⟩

theorem consRun_append (c : Char) {x : List (List Char)} (y : List (List Char))
    (hx : x ≠ []) : consRun c (x ++ y) = consRun c x ++ y := by
  cases x with
  | nil => exact absurd rfl hx
  | cons r rs => rfl

theorem runsOf_append_ws {d : Char} (hd : pyWs d = true) (b : List Char) :
    ∀ a, runsOf (a ++ d :: b) = runsOf a ++ runsOf b := by
  intro a
  induction a with
  | nil =>
    rw [List.nil_append, runsOf_cons_ws hd b]
    rfl
  | cons c a2 ih =>
    rcases hc : pyWs c with _ | _
    · rcases a2 with _ | ⟨e, a3⟩
      · rw [List.cons_append, List.nil_append, runsOf_cons_cons_ws hc hd b,
          runsOf_singleton hc]
        rfl
      · rcases he : pyWs e with _ | _
        · have hne : runsOf (e :: a3) ≠ [] := runsOf_cons_ne_nil he a3
          rw [List.cons_append, List.cons_append,
            runsOf_cons_cons_nws hc he (a3 ++ d :: b)]
          rw [List.cons_append] at ih
          rw [ih, consRun_append c (runsOf b) hne,
            runsOf_cons_cons_nws hc he a3]
        · rw [List.cons_append, List.cons_append,
            runsOf_cons_cons_ws hc he (a3 ++ d :: b), runsOf_cons_cons_ws hc he a3]
          have ih2 := ih
          rw [List.cons_append, runsOf_cons_ws he (a3 ++ d :: b),
            runsOf_cons_ws he a3] at ih2
          rw [ih2]
          rfl
    · rw [List.cons_append, runsOf_cons_ws hc (a2 ++ d :: b), ih, runsOf_cons_ws hc a2]

theorem runsOf_all_ws {s : List Char} (h : ∀ c ∈ s, pyWs c = true) : runsOf s = [] := by
  induction s with
  | nil => rfl
  | cons c s2 ih =>
    rw [runsOf_cons_ws (h c (List.mem_cons_self c s2)) s2]
    exact ih fun x hx => h x (List.mem_cons_of_mem c hx)

theorem runsOf_ws_suffix {s : List Char} (h : ∀ c ∈ s, pyWs c = true) (a : List Char) :
    runsOf (a ++ s) = runsOf a := by
  rcases s with _ | ⟨d, s2⟩
  · rw [List.append_nil]
  · rw [runsOf_append_ws (h d (List.mem_cons_self d s2)) s2 a,
      runsOf_all_ws fun x hx => h x (List.mem_cons_of_mem d hx), List.append_nil]

theorem runsOf_ws_front {s : List Char} (h : ∀ c ∈ s, pyWs c = true) (l : List Char) :
    runsOf (s ++ l) = runsOf l := by
  induction s with
  | nil => rfl
  | cons c s2 ih =>
    rw [List.cons_append, runsOf_cons_ws (h c (List.mem_cons_self c s2)) (s2 ++ l)]
    exact ih fun x hx => h x (List.mem_cons_of_mem c hx)

theorem runsOf_trimLeft (l : List Char) : runsOf (trimLeft l) = runsOf l := by
  conv_rhs => rw [← List.takeWhile_append_dropWhile pyWs l]
  rw [runsOf_ws_front (fun x hx => List.mem_takeWhile_imp hx) (List.dropWhile pyWs l)]
  rfl

theorem runsOf_trimRight (l : List Char) : runsOf (trimRight l) = runsOf l := by
  obtain ⟨t, ht⟩ := trimRight_pre l
  have hws : ∀ c ∈ t, pyWs c = true := by
    intro c hc
    have h2 : l.reverse = (trimRight l ++ t).reverse := by rw [ht]
    rw [List.reverse_append] at h2
    have h3 : trimRight l = (l.reverse.dropWhile pyWs).reverse := rfl
    have h4 : t.reverse ++ l.reverse.dropWhile pyWs = l.reverse := by
      rw [h3, List.reverse_reverse] at h2
      exact h2.symm
    have h7 : t.reverse ++ l.reverse.dropWhile pyWs =
        List.takeWhile pyWs l.reverse ++ l.reverse.dropWhile pyWs := by
      rw [h4, List.takeWhile_append_dropWhile]
    have h5 : t.reverse = List.takeWhile pyWs l.reverse :=
      List.append_cancel_right h7
    have hc2 : c ∈ t.reverse := List.mem_reverse.mpr hc
    rw [h5] at hc2
    exact List.mem_takeWhile_imp hc2
  conv_rhs => rw [← ht]
  rw [runsOf_ws_suffix hws (trimRight l)]

theorem runsOf_pyStrip (l : List Char) : runsOf (pyStrip l) = runsOf l := by
  rw [pyStrip, runsOf_trimRight, runsOf_trimLeft]

theorem mem_runsOf_inf {r : List Char} : ∀ {l : List Char}, r ∈ runsOf l → r <:+: l := by
  intro l
  induction l with
  | nil =>
    intro h
    exact absurd h (List.not_mem_nil r)
  | cons c rest ih =>
    intro hr
    rcases hc : pyWs c with _ | _
    · rcases rest with _ | ⟨d, t⟩
      · rw [runsOf_singleton hc] at hr
        simp at hr
        subst hr
        exact preToInf ⟨[], rfl⟩
      · rcases hd : pyWs d with _ | _
        · rw [runsOf_cons_cons_nws hc hd t] at hr
          obtain ⟨r0, rs0, hrr, hpre⟩ := runsOf_head_pre hd t
          rw [hrr] at hr
          simp only [consRun] at hr
          rcases List.mem_cons.mp hr with hr2 | hr2
          · subst hr2
            obtain ⟨u, hu⟩ := hpre
            exact preToInf ⟨u, by rw [List.cons_append, hu]⟩
          · exact List.infix_cons (ih (by rw [hrr]; exact List.mem_cons_of_mem r0 hr2))
        · rw [runsOf_cons_cons_ws hc hd t] at hr
          rcases List.mem_cons.mp hr with hr2 | hr2
          · subst hr2
            exact preToInf ⟨d :: t, rfl⟩
          · have hr3 : r ∈ runsOf (d :: t) := by
              rw [runsOf_cons_ws hd t]
              exact hr2
            exact List.infix_cons (ih hr3)
    · rw [runsOf_cons_ws hc rest] at hr
      exact List.infix_cons (ih hr)

theorem joinWith_single (sep x : List Char) : joinWith sep [x] = x := rfl

theorem joinWith_cons₂ (sep x y : List Char) (L : List (List Char)) :
    joinWith sep (x :: y :: L) = x ++ sep ++ joinWith sep (y :: L) := rfl

theorem mem_joinWith_inf (sep : List Char) {x : List Char} :
    ∀ {L : List (List Char)}, x ∈ L → x <:+: joinWith sep L := by
  intro L
  induction L with
  | nil =>
    intro h
    exact absurd h (List.not_mem_nil x)
  | cons y L2 ihL =>
    intro hx
    rcases List.mem_cons.mp hx with h | h
    · subst h
      rcases L2 with _ | ⟨z, L3⟩
      · exact ⟨[], [], by simp [joinWith_single]⟩
      · rw [joinWith_cons₂]
        exact ⟨[], sep ++ joinWith sep (z :: L3), by simp⟩
    · rcases L2 with _ | ⟨z, L3⟩
      · exact absurd h (List.not_mem_nil x)
      · rw [joinWith_cons₂, List.append_assoc]
        exact infAppendLeft y (infAppendLeft sep (ihL h))

theorem splitLines_ne_nil (m : List Char) : splitLines m ≠ [] := by
  cases m with
  | nil => simp [splitLines]
  | cons c rest =>
    by_cases hc : c = '\n' <;> simp [splitLines, hc, consRun_ne_nil]

theorem splitLines_no_nl (m : List Char) : ∀ l ∈ splitLines m, '\n' ∉ l := by
  induction m with
  | nil =>
    intro l hl
    simp [splitLines] at hl
    subst hl
    simp
  | cons c rest ih =>
    intro l hl
    by_cases hc : c = '\n'
    · simp only [splitLines, if_pos hc] at hl
      rcases List.mem_cons.mp hl with h | h
      · subst h
        simp
      · exact ih l h
    · simp only [splitLines, if_neg hc] at hl
      rcases hsp : splitLines rest with _ | ⟨l0, ls⟩
      · exact absurd hsp (splitLines_ne_nil rest)
      · rw [hsp] at hl
        simp only [consRun] at hl
        rcases List.mem_cons.mp hl with h | h
        · subst h
          intro hmem
          rcases List.mem_cons.mp hmem with h2 | h2
          · exact hc h2.symm
          · exact ih l0 (by rw [hsp]; exact List.mem_cons_self l0 ls) h2
        · exact ih l (by rw [hsp]; exact List.mem_cons_of_mem l0 h)

theorem joinWith_splitLines (m : List Char) : joinWith ['\n'] (splitLines m) = m := by
  induction m with
  | nil => rfl
  | cons c rest ih =>
    by_cases hc : c = '\n'
    · subst hc
      rcases hsp : splitLines rest with _ | ⟨l0, ls⟩
      · exact absurd hsp (splitLines_ne_nil rest)
      · have h1 : splitLines ('\n' :: rest) = [] :: l0 :: ls := by
          simp [splitLines, hsp]
        rw [h1, joinWith_cons₂]
        rw [hsp] at ih
        rw [ih]
        rfl
    · rcases hsp : splitLines rest with _ | ⟨l0, ls⟩
      · exact absurd hsp (splitLines_ne_nil rest)
      · have h1 : splitLines (c :: rest) = (c :: l0) :: ls := by
          simp [splitLines, hc, hsp, consRun]
        rw [h1]
        rw [hsp] at ih
        rcases ls with _ | ⟨l1, ls2⟩
        · rw [joinWith_single]
          rw [joinWith_single] at ih
          rw [ih]
        · rw [joinWith_cons₂]
          rw [joinWith_cons₂] at ih
          rw [List.cons_append, List.cons_append, ih]

theorem splitLines_of_no_nl {x : List Char} (hx : '\n' ∉ x) : splitLines x = [x] := by
  induction x with
  | nil => rfl
  | cons c x2 ih =>
    have hc : ¬ c = '\n' := fun h => hx (h ▸ List.mem_cons_self c x2)
    have h2 := ih fun h => hx (List.mem_cons_of_mem c h)
    simp [splitLines, hc, h2, consRun]

theorem splitLines_append_nl {x : List Char} (hx : '\n' ∉ x) (m : List Char) :
    splitLines (x ++ '\n' :: m) = x :: splitLines m := by
  induction x with
  | nil => simp [splitLines]
  | cons c x2 ih =>
    have hc : ¬ c = '\n' := fun h => hx (h ▸ List.mem_cons_self c x2)
    have h2 := ih fun h => hx (List.mem_cons_of_mem c h)
    rw [List.cons_append]
    simp [splitLines, hc, h2, consRun]

theorem splitLines_joinWith : ∀ {L : List (List Char)}, (∀ l ∈ L, '\n' ∉ l) → L ≠ [] →
    splitLines (joinWith ['\n'] L) = L := by
  intro L
  induction L with
  | nil =>
    intro _ hne
    exact absurd rfl hne
  | cons x L2 ih =>
    intro hL _
    rcases L2 with _ | ⟨y, L3⟩
    · rw [joinWith_single]
      exact splitLines_of_no_nl (hL x (List.mem_cons_self x []))
    · rw [joinWith_cons₂, List.append_assoc]
      have h1 : splitLines (x ++ '\n' :: joinWith ['\n'] (y :: L3)) =
          x :: splitLines (joinWith ['\n'] (y :: L3)) :=
        splitLines_append_nl (hL x (List.mem_cons_self x (y :: L3))) _
      rw [show x ++ (['\n'] ++ joinWith ['\n'] (y :: L3)) =
          x ++ '\n' :: joinWith ['\n'] (y :: L3) from rfl, h1,
        ih (fun l hl => hL l (List.mem_cons_of_mem x hl)) (by simp)]

theorem runsOf_joinWith : ∀ L : List (List Char),
    runsOf (joinWith ['\n'] L) = (L.map runsOf).flatten := by
  intro L
  induction L with
  | nil => rfl
  | cons x L2 ih =>
    rcases L2 with _ | ⟨y, L3⟩
    · rw [joinWith_single]
      simp
    · rw [joinWith_cons₂, List.append_assoc]
      have h1 : runsOf (x ++ '\n' :: joinWith ['\n'] (y :: L3)) =
          runsOf x ++ runsOf (joinWith ['\n'] (y :: L3)) :=
        runsOf_append_ws (by decide) _ x
      rw [show x ++ (['\n'] ++ joinWith ['\n'] (y :: L3)) =
          x ++ '\n' :: joinWith ['\n'] (y :: L3) from rfl, h1, ih]
      simp

theorem formatLine_of_no_speaker {l : List Char} (h : speakerMatch (pyStrip l) = none) :
    formatLine l = pyStrip l := by
  by_cases he : pyStrip l = []
  · have h1 : formatLine l = [] := by simp only [formatLine, if_pos he]
    rw [h1, he]
  · simp only [formatLine, if_neg he, h]

theorem take2_of_speaker_none {t : List Char} (h : speakerMatch t = none) :
    t.take 2 ≠ ['>', '>'] := by
  intro htake
  rcases t with _ | ⟨a, t1⟩
  · simp at htake
  · rcases t1 with _ | ⟨b, t2⟩
    · simp at htake
    · have h2 : [a, b] = ['>', '>'] := htake
      simp only [List.cons.injEq, and_true] at h2
      obtain ⟨ha, hb⟩ := h2
      subst ha
      subst hb
      rw [show speakerMatch ('>' :: '>' :: t2) = some (t2.dropWhile pyWs) from rfl] at h
      exact Option.noConfusion h

theorem mem_of_mem_pyStrip {x : Char} {l : List Char} (h : x ∈ pyStrip l) : x ∈ l := by
  obtain ⟨s, t, hst⟩ := pyStrip_inf l
  rw [← hst]
  simp [h]

/-- C9 (counterexample): a speaker-marked line loses its marker in the
txt export: for the transcript `">> hi"` the run `">>"` does not occur
anywhere in the decoded export, refuting "contains every non-whitespace
run of the input text". -/
theorem c9_counterexample :
    ['>', '>'] ∈ runsOf (">> hi".toList) ∧
    ¬ ['>', '>'] <:+: createTxt ("T".toList) ("D".toList) (">> hi".toList) := by
  constructor
  · decide
  · decide

/-- C9 (amended): for every transcript text none of whose (stripped)
lines matches the speaker-marker regex (`>>` or `[Speaker N]:`), the
decoded txt export contains every non-whitespace run of the text;
speaker-marked lines have their marker rewritten, so only their marker
runs can disappear. -/
theorem c9_txt_contains_runs (title dateStr text : List Char)
    (hns : ∀ l ∈ splitLines (pyStrip text), speakerMatch (pyStrip l) = none) :
    ∀ r ∈ runsOf text, r <:+: createTxt title dateStr text := by
  intro r hr
  by_cases hempty : pyStrip text = []
  · rw [← runsOf_pyStrip text, hempty] at hr
    exact absurd hr (List.not_mem_nil r)
  · have hr2 : r ∈ runsOf (pyStrip text) := by
      rw [runsOf_pyStrip]
      exact hr
    have hr3 : r ∈ ((splitLines (pyStrip text)).map runsOf).flatten := by
      rw [← runsOf_joinWith, joinWith_splitLines]
      exact hr2
    rw [List.mem_flatten] at hr3
    obtain ⟨runs, hruns, hrmem⟩ := hr3
    rw [List.mem_map] at hruns
    obtain ⟨line, hline, rfl⟩ := hruns
    have hnsl : speakerMatch (pyStrip line) = none := hns line hline
    have hrps : r ∈ runsOf (pyStrip line) := by
      rw [runsOf_pyStrip]
      exact hrmem
    have hrinf : r <:+: pyStrip line := mem_runsOf_inf hrps
    have hfmt : formatTextContent text =
        joinWith ['\n'] ((splitLines (pyStrip text)).map pyStrip) := by
      rw [formatTextContent, if_neg hempty]
      congr 1
      exact List.map_congr_left fun l hl => formatLine_of_no_speaker (hns l hl)
    have hnl : ∀ l2 ∈ (splitLines (pyStrip text)).map pyStrip, '\n' ∉ l2 := by
      intro l2 hl2
      rw [List.mem_map] at hl2
      obtain ⟨l3, hl3, rfl⟩ := hl2
      intro hmem
      exact splitLines_no_nl (pyStrip text) l3 hl3 (mem_of_mem_pyStrip hmem)
    have hsplit : splitLines (formatTextContent text) =
        (splitLines (pyStrip text)).map pyStrip := by
      rw [hfmt]
      exact splitLines_joinWith hnl
        fun hcontra => splitLines_ne_nil (pyStrip text) (List.map_eq_nil_iff.mp hcontra)
    have hlne : pyStrip line ≠ [] := by
      intro h0
      rw [h0] at hrps
      exact absurd hrps (List.not_mem_nil r)
    have htake : ¬ (pyStrip line).take 2 = ['>', '>'] := take2_of_speaker_none hnsl
    have hrend : renderTxtLine (pyStrip line) = ' ' :: ' ' :: ' ' :: ' ' :: pyStrip line := by
      simp only [renderTxtLine, pyStrip_idem line]
      rw [if_neg hlne, if_neg htake]
    have hmemline : renderTxtLine (pyStrip line) ∈
        (splitLines (formatTextContent text)).map renderTxtLine := by
      rw [hsplit]
      exact List.mem_map_of_mem renderTxtLine (List.mem_map_of_mem pyStrip hline)
    have hmem2 : renderTxtLine (pyStrip line) ∈
        ([[], pyCenter 70 "TRANSCRIPT".toList, pyCenter 70 title, pyCenter 70 dateStr,
           [], List.replicate 70 '─', []]
          ++ (splitLines (formatTextContent text)).map renderTxtLine
          ++ [[], List.replicate 70 '─', pyCenter 70 "END OF TRANSCRIPT".toList, []]) :=
      List.mem_append.mpr (Or.inl (List.mem_append.mpr (Or.inr hmemline)))
    have hct : createTxt title dateStr text = joinWith ['\n']
        ([[], pyCenter 70 "TRANSCRIPT".toList, pyCenter 70 title, pyCenter 70 dateStr,
           [], List.replicate 70 '─', []]
          ++ (splitLines (formatTextContent text)).map renderTxtLine
          ++ [[], List.replicate 70 '─', pyCenter 70 "END OF TRANSCRIPT".toList, []]) := rfl
    rw [hct]
    refine List.IsInfix.trans ?_ (mem_joinWith_inf ['\n'] hmem2)
    rw [hrend]
    exact infAppendLeft [' ', ' ', ' ', ' '] hrinf

/-- C9 (witness). -/
theorem c9_txt_contains_runs_witness :
    (∀ l ∈ splitLines (pyStrip ("hello world\nfoo".toList)),
      speakerMatch (pyStrip l) = none) ∧
    "hello".toList <:+:
      createTxt ("T".toList) ("D".toList) ("hello world\nfoo".toList) :=
  ⟨by decide,
   c9_txt_contains_runs ("T".toList) ("D".toList) ("hello world\nfoo".toList)
     (by decide) ("hello".toList) (by decide)⟩
